import Mathlib

/-!
Verification of the V8 backport orchestration engine
(`src/lib/update-v8/backport.js` of `@node-core/utils`).

The JavaScript source is shallowly embedded: pure string manipulation
becomes Lean functions on `String`, the regex-based version bumps become
explicit first-match scanners over `List Char`, the task lists built by
`doBackport` become a list of task identifiers, and the git side effects
of running a task sequence become an explicit effect trace interpreted
into a list of created commits.
-/

deriving instance DecidableEq for Except

namespace Backport

/-- One upstream commit being backported, mirroring the record built by
`generatePatches` (`sha`, `data`, `message`); `hadConflicts` is absent
(undefined, hence falsy) until `applyPatch` sets it, modelled as a `Bool`
that starts `false`. -/
structure Patch where
  sha : String
  data : String
  message : String
  hadConflicts : Bool
deriving DecidableEq, Repr

/-- The options consumed by `checkOptions` / `doBackport`: `sha` list,
`squash`, `preserveOriginalAuthor`, `bump` (may be undefined, tested in
the source with `!== false`, hence `Option Bool`), `nodeMajorVersion`. -/
structure Options where
  sha : List String
  squash : Bool
  preserveOriginalAuthor : Bool
  bump : Option Bool
  nodeMajorVersion : Nat
deriving DecidableEq, Repr

/-- Modelled from the spec: `shortSha` lives in `lib/utils.js`, which is
not part of the sources under review; the spec only requires a shortened
form of the commit identifier, so we model it as a fixed-width cut. -/
def shortSha (sha : String) : String := sha.take 11

/-- The two apply methods of `applyPatch`: `git apply` (working tree)
and `git am` (mailbox apply, the default argument is `'apply'`). -/
inductive Method where
  | apply
  | am
deriving DecidableEq, Repr

/-- One observable side effect of running the task sequence: reads of
the upstream V8 clone, apply/mailbox-apply invocations (`ok` records
whether the command exited zero), the conflict-resolution prompt,
`git am --continue`, `git add`, file writes, and `git commit`
(`amend` records whether `--amend` was passed). -/
inductive Eff where
  | v8Read (cmd : String)
  | applyCmd (method : Method) (data : String) (ok : Bool)
  | prompt
  | amContinue
  | add (p : String)
  | write (p : String)
  | commit (amend : Bool) (title : String) (body : String)
deriving DecidableEq, Repr

/-- `message.replace(/\n/g, '\n    ')`: every newline is replaced by a
newline plus four spaces (the regex pattern is the single character
`\n`, so global replacement is a per-character map). -/
def indentNewlines (s : String) : String :=
  String.mk (s.data.flatMap (fun c => if c = '\n' then '\n' :: "    ".data else [c]))

/-- The action word of `formatMessageTitle`:
`patches.some(patch => patch.hadConflicts) ? 'backport' : 'cherry-pick'`. -/
def titleAction (patches : List Patch) : String :=
  if patches.any (fun p => p.hadConflicts) then "backport" else "cherry-pick"

/-- `formatMessageTitle` from the source: the action word is chosen by
`patches.some(p => p.hadConflicts)`, and the shape branches on the patch
count (1, 2, 3, more). -/
def formatMessageTitle (patches : List Patch) : String :=
  let action := titleAction patches
  match patches with
  | [p] => "deps: V8: " ++ action ++ " " ++ shortSha p.sha
  | [p, q] => "deps: V8: " ++ action ++ " " ++ shortSha p.sha ++ " and " ++ shortSha q.sha
  | [p, q, r] =>
      "deps: V8: " ++ action ++ " " ++ shortSha p.sha ++ ", " ++ shortSha q.sha ++
        " and " ++ shortSha r.sha
  | ps => "deps: V8: " ++ action ++ " " ++ toString ps.length ++ " commits"

/-- `formatMessageBody(patch, prefixTitle, trailers = '')` from the
source: indent the original message, wrap it under the fixed header,
append the Refs line with the full sha and the trailers, and when
`prefixTitle` is set prepend the per-patch action line. -/
def formatMessageBody (patch : Patch) (prefixTitle : Bool) (trailers : String) : String :=
  let indentedMessage := indentNewlines patch.message
  let body :=
    "Original commit message:\n\n" ++
    "    " ++ indentedMessage ++ "\n\n" ++
    "Refs: https://github.com/v8/v8/commit/" ++ patch.sha ++ trailers
  if prefixTitle then
    (if patch.hadConflicts then "Backport" else "Cherry-pick") ++ " " ++
      shortSha patch.sha ++ ".\n" ++ body
  else body

/-- The squashed commit body built inside `commitSquashedBackport`: a
single patch keeps its plain body; several patches each contribute their
prefixed body followed by a blank line. -/
def squashedBody (patches : List Patch) : String :=
  match patches with
  | [p] => formatMessageBody p false ""
  | ps => ps.foldl (fun acc p => acc ++ formatMessageBody p true "" ++ "\n\n") ""

/-- Spec-side join: bodies "concatenated with a blank-line separator",
written independently of the source for comparison. -/
def joinWithBlankLine : List String → String
  | [] => ""
  | [s] => s
  | s :: rest => s ++ "\n\n" ++ joinWithBlankLine rest

theorem strAppend_assoc (a b c : String) : a ++ b ++ c = a ++ (b ++ c) := by
  apply String.ext
  simp [String.data_append]

theorem flatMap_id_of_noNewline (l : List Char) (h : ∀ c ∈ l, c ≠ '\n') :
    (l.flatMap (fun c => if c = '\n' then '\n' :: "    ".data else [c])) = l := by
  induction l with
  | nil => rfl
  | cons c l ih =>
      have hc : c ≠ '\n' := h c (by simp)
      simp only [List.flatMap_cons, if_neg hc]
      rw [ih fun x hx => h x (by simp [hx])]
      rfl

theorem squash_foldl_join (f : Patch → String) :
    ∀ (l : List Patch) (acc : String), l ≠ [] →
      l.foldl (fun a p => a ++ f p ++ "\n\n") acc =
        acc ++ joinWithBlankLine (l.map f) ++ "\n\n" := by
  intro l
  induction l with
  | nil => intro acc h; exact absurd rfl h
  | cons p l ih =>
      intro acc _
      cases l with
      | nil => simp [joinWithBlankLine]
      | cons q l' =>
          rw [List.foldl_cons, ih (acc ++ f p ++ "\n\n") (by simp)]
          simp only [List.map_cons, joinWithBlankLine]
          apply String.ext
          simp [String.data_append]

/-- C4: `formatMessageTitle` on a non-empty patch list follows the
documented grammar for counts 1, 2, 3 and more than 3, and the action
word is `backport` exactly when some patch in the list had conflicts. -/
theorem formatMessageTitle_grammar (patches : List Patch) :
    (titleAction patches = "backport" ↔ ∃ p ∈ patches, p.hadConflicts = true)
    ∧ (∀ p, patches = [p] →
        formatMessageTitle patches =
          "deps: V8: " ++ titleAction patches ++ " " ++ shortSha p.sha)
    ∧ (∀ p q, patches = [p, q] →
        formatMessageTitle patches =
          "deps: V8: " ++ titleAction patches ++ " " ++ shortSha p.sha ++ " and " ++
            shortSha q.sha)
    ∧ (∀ p q r, patches = [p, q, r] →
        formatMessageTitle patches =
          "deps: V8: " ++ titleAction patches ++ " " ++ shortSha p.sha ++ ", " ++
            shortSha q.sha ++ " and " ++ shortSha r.sha)
    ∧ (3 < patches.length →
        formatMessageTitle patches =
          "deps: V8: " ++ titleAction patches ++ " " ++ toString patches.length ++
            " commits") := by
  refine ⟨?_, ?_, ?_, ?_, ?_⟩
  · constructor
    · intro h
      by_cases hc : patches.any (fun p => p.hadConflicts) = true
      · simpa [List.any_eq_true] using hc
      · exact absurd h (by simp [titleAction, hc])
    · intro h
      have hc : patches.any (fun p => p.hadConflicts) = true := by
        simpa [List.any_eq_true] using h
      simp [titleAction, hc]
  · rintro p rfl; rfl
  · rintro p q rfl; rfl
  · rintro p q r rfl; rfl
  · intro h
    match patches, h with
    | a :: b :: c :: d :: tl, _ => rfl

theorem formatMessageTitle_grammar_witness :
    formatMessageTitle [⟨"a1", "", "", true⟩, ⟨"a2", "", "", false⟩] =
      "deps: V8: backport a1 and a2" := by
  have h := (formatMessageTitle_grammar
    [⟨"a1", "", "", true⟩, ⟨"a2", "", "", false⟩]).2.2.1
    ⟨"a1", "", "", true⟩ ⟨"a2", "", "", false⟩ rfl
  exact h.trans (by decide)

/-- C5: `formatMessageBody` reproduces the original message with every
newline replaced by a newline plus four-space indent under the fixed
header, appends a Refs line holding the exact full sha, appends the
trailers verbatim; with `prefixTitle` it prepends the per-patch action
line chosen by that patch's own conflict flag, and the squashed body of
several patches joins the prefixed bodies with blank-line separators
(plus a trailing blank line). -/
theorem formatMessageBody_structure :
    (∀ (p : Patch) (t : String),
        formatMessageBody p false t =
          "Original commit message:\n\n    " ++ indentNewlines p.message ++
            "\n\nRefs: https://github.com/v8/v8/commit/" ++ p.sha ++ t)
    ∧ (∀ a b : String,
        indentNewlines (a ++ "\n" ++ b) =
          indentNewlines a ++ "\n    " ++ indentNewlines b)
    ∧ (∀ a : String, (∀ c ∈ a.data, c ≠ '\n') → indentNewlines a = a)
    ∧ (∀ (p : Patch) (t : String),
        formatMessageBody p true t =
          (if p.hadConflicts then "Backport" else "Cherry-pick") ++ " " ++
            shortSha p.sha ++ ".\n" ++ formatMessageBody p false t)
    ∧ (∀ (p q : Patch) (ps : List Patch),
        squashedBody (p :: q :: ps) =
          joinWithBlankLine
            ((p :: q :: ps).map (fun x => formatMessageBody x true "")) ++ "\n\n")
    ∧ (∀ p : Patch, squashedBody [p] = formatMessageBody p false "") := by
  refine ⟨?_, ?_, ?_, ?_, ?_, ?_⟩
  · intro p t
    show
      "Original commit message:\n\n" ++ "    " ++ indentNewlines p.message ++ "\n\n" ++
          "Refs: https://github.com/v8/v8/commit/" ++ p.sha ++ t =
        "Original commit message:\n\n    " ++ indentNewlines p.message ++
          "\n\nRefs: https://github.com/v8/v8/commit/" ++ p.sha ++ t
    have hA : ("Original commit message:\n\n    " : String) =
        "Original commit message:\n\n" ++ "    " := by decide
    have hC : ("\n\nRefs: https://github.com/v8/v8/commit/" : String) =
        "\n\n" ++ "Refs: https://github.com/v8/v8/commit/" := by decide
    rw [hA, hC]
    simp only [strAppend_assoc]
  · intro a b
    apply String.ext
    simp only [indentNewlines, String.data_append]
    simp [List.flatMap_append]
  · intro a h
    apply String.ext
    simpa [indentNewlines] using flatMap_id_of_noNewline a.data h
  · intro p t
    cases hp : p.hadConflicts <;> simp [formatMessageBody, hp, strAppend_assoc]
  · intro p q ps
    show (p :: q :: ps).foldl (fun acc x => acc ++ formatMessageBody x true "" ++ "\n\n") "" = _
    rw [squash_foldl_join (fun x => formatMessageBody x true "") (p :: q :: ps) "" (by simp)]
    apply String.ext
    simp [String.data_append]
  · intro p; rfl

theorem formatMessageBody_structure_witness :
    formatMessageBody ⟨"s1", "", "a\nb", false⟩ false "T" =
      "Original commit message:\n\n    a\n    b\n\nRefs: https://github.com/v8/v8/commit/s1T" := by
  have h := formatMessageBody_structure.1 ⟨"s1", "", "a\nb", false⟩ "T"
  exact h.trans (by decide)

/-! ### First-match model of the two version-bump regexes

Both regexes have the shape "literal, one or more digits, literal"
(`/V8_PATCH_LEVEL (\d+)/` and `/'v8_embedder_string': '-node\.(\d+)'/`).
A JavaScript non-global `replace`/`exec` acts on the leftmost match;
with a greedy `\d+` whose continuation is either empty or a quote the
leftmost match is: the first position where the literal head occurs
followed by at least one digit whose maximal digit run is followed by
the literal tail. -/

/-- Try to match `pre ++ digits+ ++ post` at the head of `s`; on success
return the digit run and the remainder after the match. -/
def matchAt (pre post s : List Char) : Option (List Char × List Char) :=
  if pre.isPrefixOf s then
    let t := s.drop pre.length
    let d := t.takeWhile Char.isDigit
    let u := t.dropWhile Char.isDigit
    if d.isEmpty then none
    else if post.isPrefixOf u then some (d, u.drop post.length)
    else none
  else none

/-- Leftmost match of `pre ++ digits+ ++ post` in `s`: returns the text
before the match, the digit run, and the text after the match. -/
def findMatch (pre post : List Char) : List Char → Option (List Char × List Char × List Char)
  | [] =>
      match matchAt pre post [] with
      | some (d, r) => some ([], d, r)
      | none => none
  | c :: s =>
      match matchAt pre post (c :: s) with
      | some (d, r) => some ([], d, r)
      | none =>
          match findMatch pre post s with
          | some (b, d, r) => some (c :: b, d, r)
          | none => none

/-- JavaScript `String.replace` with a non-global regex: substitute the
leftmost match, and return the input unchanged when there is none. -/
def replaceFirstMatch (pre post news s : List Char) : List Char :=
  match findMatch pre post s with
  | some (b, _, r) => b ++ pre ++ news ++ post ++ r
  | none => s

theorem matchAt_sound (pre post s d r : List Char)
    (h : matchAt pre post s = some (d, r)) :
    s = pre ++ (d ++ (post ++ r)) ∧ d ≠ [] ∧ ∀ c ∈ d, c.isDigit = true := by
  simp only [matchAt] at h
  by_cases hp : pre.isPrefixOf s
  case neg => simp [hp] at h
  case pos =>
    simp only [hp, if_true] at h
    obtain ⟨t, ht⟩ := (List.isPrefixOf_iff_prefix.mp hp)
    by_cases hd : (s.drop pre.length).takeWhile Char.isDigit = []
    · simp [hd] at h
    · rw [if_neg (by simpa [List.isEmpty_iff] using hd)] at h
      by_cases hpost : post.isPrefixOf ((s.drop pre.length).dropWhile Char.isDigit)
      case neg => simp [hpost] at h
      case pos =>
        simp only [hpost, if_true, Option.some.injEq, Prod.mk.injEq] at h
        obtain ⟨hdeq, hreq⟩ := h
        obtain ⟨w, hw⟩ := (List.isPrefixOf_iff_prefix.mp hpost)
        have hdrop : s.drop pre.length = t := by
          rw [← ht]; exact List.drop_left pre t
        have hwdrop : ((s.drop pre.length).dropWhile Char.isDigit).drop post.length = w := by
          rw [← hw]; exact List.drop_left post w
        have hwr : r = w := by rw [← hreq, hwdrop]
        subst hwr
        refine ⟨?_, ?_, ?_⟩
        · rw [← ht]
          congr 1
          rw [← List.takeWhile_append_dropWhile (p := Char.isDigit) (l := t), ← hdrop,
            hdeq, ← hw]
        · rw [← hdeq]; exact hd
        · intro c hc
          rw [← hdeq] at hc
          exact List.mem_takeWhile_imp hc

theorem findMatch_sound (pre post : List Char) :
    ∀ (s b d r : List Char), findMatch pre post s = some (b, d, r) →
      s = b ++ (pre ++ (d ++ (post ++ r))) ∧ d ≠ [] ∧ ∀ c ∈ d, c.isDigit = true := by
  intro s
  induction s with
  | nil =>
      intro b d r h
      simp only [findMatch] at h
      cases hm : matchAt pre post [] with
      | none => rw [hm] at h; cases h
      | some dr =>
          obtain ⟨d0, r0⟩ := dr
          rw [hm] at h
          simp only [Option.some.injEq, Prod.mk.injEq] at h
          obtain ⟨hb, hd1, hr1⟩ := h
          subst hb; subst hd1; subst hr1
          have hres := matchAt_sound pre post [] d0 r0 hm
          simpa using hres
  | cons c s ih =>
      intro b d r h
      simp only [findMatch] at h
      cases hm : matchAt pre post (c :: s) with
      | some dr =>
          obtain ⟨d0, r0⟩ := dr
          rw [hm] at h
          simp only [Option.some.injEq, Prod.mk.injEq] at h
          obtain ⟨hb, hd1, hr1⟩ := h
          subst hb; subst hd1; subst hr1
          have hres := matchAt_sound pre post (c :: s) d0 r0 hm
          simpa using hres
      | none =>
          rw [hm] at h
          cases hf : findMatch pre post s with
          | none => rw [hf] at h; cases h
          | some bdr =>
              obtain ⟨b', d', r'⟩ := bdr
              rw [hf] at h
              simp only [Option.some.injEq, Prod.mk.injEq] at h
              obtain ⟨hb, hd1, hr1⟩ := h
              subst hb; subst hd1; subst hr1
              obtain ⟨hs, hd, hdig⟩ := ih b' d' r' hf
              exact ⟨by rw [List.cons_append, ← hs], hd, hdig⟩

/-- The sequence `V8_PATCH_LEVEL ` heading the patch-level regex. -/
def v8PatchPat : List Char := "V8_PATCH_LEVEL ".data

/-- A single-quote character (written via its code point so that the
pattern strings can be assembled without quote literals). -/
def sq : Char := Char.ofNat 39

/-- The literal head of `embedderRegex`, i.e. quote, `v8_embedder_string`,
quote, colon, space, quote, `-node.`; the regex tail is one more quote. -/
def embedderPre : List Char :=
  [sq] ++ "v8_embedder_string".data ++ [sq] ++ ": ".data ++ [sq] ++ "-node.".data

/-- JavaScript `parseInt(<digits>, 10)`. -/
def parseDigits (ds : List Char) : Nat :=
  ds.foldl (fun acc c => acc * 10 + (c.toNat - 48)) 0

/-- `incrementV8Version` from the source: increment the in-memory patch
counter (`++ctx.currentVersion.patch`), read `v8-version.h`, substitute
the first `V8_PATCH_LEVEL (\d+)` match with the incremented counter
(JavaScript `replace` is a no-op when the pattern is absent), and write
the file back; the task performs no `git add` and never throws, hence
always `.ok`.  Result: new counter, new file content, effects. -/
def incrementV8Version (patchLevel : Nat) (versionH : String) :
    Except String (Nat × String × List Eff) :=
  let incremented := patchLevel + 1
  Except.ok (incremented,
    String.mk (replaceFirstMatch v8PatchPat [] (toString incremented).data versionH.data),
    [Eff.write "deps/v8/include/v8-version.h"])

/-- `incrementEmbedderVersion` from the source: `embedderRegex.exec` on
`common.gypi` — indexing `[1]` into a `null` result throws, which we
model as `.error` — then parse the captured digits, substitute
`-node.<N+1>`, write the file back and `git add` it. -/
def incrementEmbedderVersion (commonGypi : String) : Except String (String × List Eff) :=
  match findMatch embedderPre [sq] commonGypi.data with
  | none => Except.error "TypeError: cannot read properties of null (reading 1)"
  | some (_, d, _) =>
      let embedderValue := parseDigits d
      Except.ok
        (String.mk (replaceFirstMatch embedderPre [sq]
          (toString (embedderValue + 1)).data commonGypi.data),
        [Eff.write "common.gypi", Eff.add "common.gypi"])

/-- C7: when the version file contains the `V8_PATCH_LEVEL <digits>`
pattern, one patch-level bump rewrites exactly the digit span of the
first match to the incremented in-memory counter, keeps all surrounding
content, and stages nothing; when the build-configuration file contains
the embedder pattern with digits `N`, one embedder bump rewrites it to
`-node.<N+1>`, keeps all surrounding content, and stages the file. -/
theorem version_bump_rewrites :
    (∀ (p : Nat) (s : String) (b d r : List Char),
        findMatch v8PatchPat [] s.data = some (b, d, r) →
          s.data = b ++ v8PatchPat ++ d ++ r
          ∧ incrementV8Version p s =
              Except.ok (p + 1,
                String.mk (b ++ v8PatchPat ++ (toString (p + 1)).data ++ r),
                [Eff.write "deps/v8/include/v8-version.h"])
          ∧ ∀ q, Eff.add q ∉ [Eff.write "deps/v8/include/v8-version.h"])
    ∧ (∀ (s : String) (b d r : List Char),
        findMatch embedderPre [sq] s.data = some (b, d, r) →
          s.data = b ++ embedderPre ++ d ++ [sq] ++ r
          ∧ incrementEmbedderVersion s =
              Except.ok
                (String.mk (b ++ embedderPre ++ (toString (parseDigits d + 1)).data ++ [sq] ++ r),
                [Eff.write "common.gypi", Eff.add "common.gypi"])
          ∧ Eff.add "common.gypi" ∈ [Eff.write "common.gypi", Eff.add "common.gypi"]) := by
  constructor
  · intro p s b d r h
    obtain ⟨hs, -, -⟩ := findMatch_sound v8PatchPat [] s.data b d r h
    refine ⟨by simpa [List.append_assoc] using hs, ?_, by intro q; simp⟩
    simp [incrementV8Version, replaceFirstMatch, h, List.append_assoc]
  · intro s b d r h
    obtain ⟨hs, -, -⟩ := findMatch_sound embedderPre [sq] s.data b d r h
    refine ⟨by simpa [List.append_assoc] using hs, ?_, by simp⟩
    simp [incrementEmbedderVersion, replaceFirstMatch, h, List.append_assoc]

theorem version_bump_rewrites_witness :
    incrementV8Version 12 "#define V8_PATCH_LEVEL 12\n" =
      Except.ok (13, "#define V8_PATCH_LEVEL 13\n",
        [Eff.write "deps/v8/include/v8-version.h"])
    ∧ incrementEmbedderVersion (String.mk (embedderPre ++ ['5'] ++ [sq])) =
      Except.ok (String.mk (embedderPre ++ ['6'] ++ [sq]),
        [Eff.write "common.gypi", Eff.add "common.gypi"]) := by
  constructor
  · have h := (version_bump_rewrites.1 12 "#define V8_PATCH_LEVEL 12\n"
      "#define ".data ['1', '2'] ['\n'] (by decide)).2.1
    exact h.trans (by decide)
  · have h := (version_bump_rewrites.2 (String.mk (embedderPre ++ ['5'] ++ [sq]))
      [] ['5'] [] (by decide)).2.1
    exact h.trans (by decide)

/-- C8 counterexample: on a file that does not contain the
`V8_PATCH_LEVEL <digits>` pattern, the patch-level bump does not fail —
it completes successfully, writes the file content back unchanged, and
still increments the in-memory counter. -/
theorem version_bump_missing_pattern_cex :
    incrementV8Version 12 "#define FOO 1\n" =
      Except.ok (13, "#define FOO 1\n", [Eff.write "deps/v8/include/v8-version.h"]) := by
  decide

/-- C8 amended: only the embedder-string bump fails fatally when its
pattern is absent (the `null` capture access throws); the patch-level
bump never fails — with the pattern absent its `replace` is a no-op, so
the file is rewritten unchanged while the in-memory counter is still
incremented, and nothing is staged. -/
theorem version_bump_missing_pattern_amended :
    (∀ s : String, findMatch embedderPre [sq] s.data = none →
        incrementEmbedderVersion s =
          Except.error "TypeError: cannot read properties of null (reading 1)")
    ∧ (∀ (p : Nat) (s : String), findMatch v8PatchPat [] s.data = none →
        incrementV8Version p s =
          Except.ok (p + 1, s, [Eff.write "deps/v8/include/v8-version.h"])) := by
  constructor
  · intro s h
    simp [incrementEmbedderVersion, h]
  · intro p s h
    have : String.mk s.data = s := by cases s; rfl
    simp [incrementV8Version, replaceFirstMatch, h, this]

/-! ### Patch application, conflict handling, and the per-patch tasks -/

/-- `applyPatch(ctx, task, patch, method = 'apply')` from the source:
run `git <method> -p1 --3way --directory=deps/v8` with the patch data on
stdin; a bare `catch` swallows any error, sets `patch.hadConflicts` and
issues the validated prompt, after which the function returns normally —
so the result is always `.ok`. `cmdResult` is the outcome of the git
command. -/
def applyPatch (p : Patch) (method : Method) (cmdResult : Except String Unit) :
    Except String (Patch × List Eff) :=
  match cmdResult with
  | Except.ok _ => Except.ok (p, [Eff.applyCmd method p.data true])
  | Except.error _ =>
      Except.ok ({ p with hadConflicts := true },
        [Eff.applyCmd method p.data false, Eff.prompt])

/-- JavaScript `toUpperCase` as a per-character map (the token being
compared against is plain ASCII). -/
def toUpperStr (s : String) : String := String.mk (s.data.map Char.toUpper)

/-- The prompt validator `value => value.toUpperCase() === 'RESOLVED'`. -/
def validateResolved (value : String) : Bool := toUpperStr value == "RESOLVED"

/-- The enquirer input prompt re-validates until the validator accepts:
given the stream of operator inputs, it returns the first accepted one
(rejection only recurses, it never fails). -/
def promptLoop : List String → Option String
  | [] => none
  | x :: xs => if validateResolved x then some x else promptLoop xs

/-- C3: a clean apply leaves `hadConflicts` untouched and issues no
prompt; a failed apply sets `hadConflicts := true` and issues the
validated prompt, whose validator accepts exactly the inputs that
uppercase to `RESOLVED`; any other input re-prompts (the loop recurses
and never produces an error), and afterwards `applyPatch` returns
normally. -/
theorem applyPatch_conflict_prompt :
    (∀ (p : Patch) (m : Method),
        applyPatch p m (Except.ok ()) = Except.ok (p, [Eff.applyCmd m p.data true])
        ∧ Eff.prompt ∉ [Eff.applyCmd m p.data true])
    ∧ (∀ (p : Patch) (m : Method) (e : String),
        applyPatch p m (Except.error e) =
          Except.ok ({ p with hadConflicts := true },
            [Eff.applyCmd m p.data false, Eff.prompt]))
    ∧ (∀ v : String, validateResolved v = true ↔ toUpperStr v = "RESOLVED")
    ∧ (∀ (x : String) (xs : List String),
        validateResolved x = false → promptLoop (x :: xs) = promptLoop xs)
    ∧ (∀ (x : String) (xs : List String),
        validateResolved x = true → promptLoop (x :: xs) = some x) := by
  refine ⟨?_, ?_, ?_, ?_, ?_⟩
  · intro p m; exact ⟨rfl, by simp⟩
  · intro p m e; rfl
  · intro v; simp [validateResolved]
  · intro x xs h; simp [promptLoop, h]
  · intro x xs h; simp [promptLoop, h]

theorem applyPatch_conflict_prompt_witness :
    applyPatch ⟨"s", "D", "m", false⟩ Method.apply (Except.error "exit 1") =
      Except.ok (⟨"s", "D", "m", true⟩, [Eff.applyCmd Method.apply "D" false, Eff.prompt])
    ∧ promptLoop ["nope", "resolved"] = some "resolved"
    ∧ validateResolved "Resolved" = true
    ∧ validateResolved "done" = false := by
  refine ⟨?_, ?_, by decide, by decide⟩
  · exact applyPatch_conflict_prompt.2.1 ⟨"s", "D", "m", false⟩ Method.apply "exit 1"
  · have h1 := applyPatch_conflict_prompt.2.2.2.1 "nope" ["resolved"] (by decide)
    have h2 := applyPatch_conflict_prompt.2.2.2.2 "resolved" [] (by decide)
    exact h1.trans h2

/-- The collaborating repositories and git identity, as consumed by the
tasks: read-only queries on the V8 clone, the conflict behaviour of the
downstream tree (`conflicts sha` says whether applying that patch exits
nonzero), and the configured `user.name` / `user.email`. -/
structure Env where
  revParse : String → String
  formatPatch : String → String
  gitLog : String → String
  conflicts : String → Bool
  userName : String
  userEmail : String

/-- The outcome of the apply/mailbox-apply git command for one patch. -/
def runCmdResult (env : Env) (p : Patch) : Except String Unit :=
  if env.conflicts p.sha then Except.error "command exited with code 1" else Except.ok ()

/-- `applyPatch` specialised to the environment's conflict oracle (the
`.error` fallback is unreachable: `applyPatch` is always `.ok`). -/
def applyPatchRun (env : Env) (p : Patch) (m : Method) : Patch × List Eff :=
  match applyPatch p m (runCmdResult env p) with
  | Except.ok out => out
  | Except.error _ => (p, [])

/-- The version-bump effects pushed by the strategy bodies: the source
guards with `ctx.bump !== false` and branches on `ctx.nodeMajorVersion < 9`. -/
def bumpEffects (o : Options) : List Eff :=
  if o.bump ≠ some false then
    if o.nodeMajorVersion < 9 then [Eff.write "deps/v8/include/v8-version.h"]
    else [Eff.write "common.gypi", Eff.add "common.gypi"]
  else []

/-- `commitTask(patch, extraArgs, trailers)` from the source: compute
the title and body, stage `deps/v8`, then build the commit argument
array `[...ctx.gpgSign, ...extraArgs, -m, title, -m, body]`.  The
declaration gives `extraArgs` no default, so when a caller passes
nothing (`none` here, `undefined` in the source) the spread of
`extraArgs` throws a `TypeError` while the array literal is evaluated —
after the `git add` and before any `git commit` runs.  Otherwise the
commit runs, amending exactly when `--amend` is among the arguments.
Result: the effects performed, and the step outcome. -/
def commitTask (p : Patch) (extraArgs : Option (List String)) (trailers : String) :
    List Eff × Except String Unit :=
  match extraArgs with
  | none => ([Eff.add "deps/v8"], Except.error "TypeError: extraArgs is not iterable")
  | some args =>
      ([Eff.add "deps/v8",
        Eff.commit (args.contains "--amend") (formatMessageTitle [p])
          (formatMessageBody p false trailers)],
       Except.ok ())

/-- The co-author trailer reconstructed by `amendHEAD` from the
configured git identity. -/
def coAuthorTrailer (env : Env) : String :=
  "\nCo-authored-by: " ++ env.userName ++ " <" ++ env.userEmail ++ ">"

/-- `amendHEAD(patch)` from the source: when the patch had conflicts,
finish the mailbox apply (`git am --continue`) and build the co-author
trailer; then amend the just-created commit via `commitTask` with
`['--amend']` (this call site does pass extra arguments, so it never
hits the undefined-spread error). -/
def amendHEAD (env : Env) (p : Patch) : List Eff × Except String Unit :=
  let ct := commitTask p (some ["--amend"])
    (if p.hadConflicts then coAuthorTrailer env else "")
  ((if p.hadConflicts then [Eff.amContinue] else []) ++ ct.1, ct.2)

/-- `commitPatch(patch)` from the source: `commitTask(patch)` with only
one argument — `extraArgs` stays undefined (`none`). -/
def commitPatch (p : Patch) : List Eff × Except String Unit := commitTask p none ""

/-- `applyPatchTask(patch)` from the source (default strategy): apply
the patch to the working tree, optionally bump the version, then run
`commitPatch`; the step outcome is `commitPatch`'s. -/
def applyPatchTask (env : Env) (o : Options) (p : Patch) : List Eff × Except String Unit :=
  let pe := applyPatchRun env p Method.apply
  let cp := commitPatch pe.1
  (pe.2 ++ bumpEffects o ++ cp.1, cp.2)

/-- `cherryPickV8CommitTask(patch)` from the source (preserve-author
strategy): mailbox-apply the patch, optionally bump the version, then
`amendHEAD`; the step outcome is `amendHEAD`'s. -/
def cherryPickV8CommitTask (env : Env) (o : Options) (p : Patch) :
    List Eff × Except String Unit :=
  let pe := applyPatchRun env p Method.am
  let ah := amendHEAD env pe.1
  (pe.2 ++ bumpEffects o ++ ah.1, ah.2)

/-- C10: the bare `catch` in `applyPatch` swallows every command error:
whatever the error value, the function returns normally (never `.error`)
with `hadConflicts` set and the prompt issued — the result does not
depend on the error at all — and the run then proceeds past the apply
step to the bump and commit/amend steps for that patch: the default
strategy continues through the bump into the commit step (whose own
outcome — the unrelated undefined-`extraArgs` failure — is what the
task reports, never the swallowed apply error), and the preserve-author
strategy continues through the bump and completes the amended commit. -/
theorem applyPatch_swallows_errors :
    (∀ (p : Patch) (m : Method) (e : String),
        applyPatch p m (Except.error e) =
          Except.ok ({ p with hadConflicts := true },
            [Eff.applyCmd m p.data false, Eff.prompt]))
    ∧ (∀ (p : Patch) (m : Method) (e₁ e₂ : String),
        applyPatch p m (Except.error e₁) = applyPatch p m (Except.error e₂))
    ∧ (∀ (p : Patch) (m : Method) (res : Except String Unit),
        ∃ out, applyPatch p m res = Except.ok out)
    ∧ (∀ (env : Env) (o : Options) (p : Patch), env.conflicts p.sha = true →
        (applyPatchTask env o p).1 =
          [Eff.applyCmd Method.apply p.data false, Eff.prompt] ++ bumpEffects o ++
            (commitPatch { p with hadConflicts := true }).1
        ∧ (applyPatchTask env o p).2 = (commitPatch { p with hadConflicts := true }).2
        ∧ (cherryPickV8CommitTask env o p).1 =
            [Eff.applyCmd Method.am p.data false, Eff.prompt] ++ bumpEffects o ++
              ([Eff.amContinue] ++
                (commitTask { p with hadConflicts := true } (some ["--amend"])
                  (coAuthorTrailer env)).1)
        ∧ (cherryPickV8CommitTask env o p).2 = Except.ok ()) := by
  refine ⟨?_, ?_, ?_, ?_⟩
  · intro p m e; rfl
  · intro p m e₁ e₂; rfl
  · intro p m res
    cases res with
    | ok u => exact ⟨_, rfl⟩
    | error e => exact ⟨_, rfl⟩
  · intro env o p h
    refine ⟨?_, ?_, ?_, ?_⟩ <;>
      simp [applyPatchTask, cherryPickV8CommitTask, applyPatchRun, applyPatch,
        runCmdResult, amendHEAD, commitTask, h]

theorem applyPatch_swallows_errors_witness :
    applyPatch ⟨"s", "D", "m", false⟩ Method.am (Except.error "ENOENT: not a conflict") =
      Except.ok (⟨"s", "D", "m", true⟩, [Eff.applyCmd Method.am "D" false, Eff.prompt])
    ∧ (applyPatchTask ⟨id, id, id, fun _ => true, "u", "e"⟩
        ⟨[], false, false, some false, 10⟩ ⟨"s", "D", "m", false⟩).1 =
      [Eff.applyCmd Method.apply "D" false, Eff.prompt, Eff.add "deps/v8"]
    ∧ (applyPatchTask ⟨id, id, id, fun _ => true, "u", "e"⟩
        ⟨[], false, false, some false, 10⟩ ⟨"s", "D", "m", false⟩).2 =
      Except.error "TypeError: extraArgs is not iterable"
    ∧ (cherryPickV8CommitTask ⟨id, id, id, fun _ => true, "u", "e"⟩
        ⟨[], false, false, some false, 10⟩ ⟨"s", "D", "m", false⟩).2 = Except.ok () := by
  have h := applyPatch_swallows_errors.2.2.2
    ⟨id, id, id, fun _ => true, "u", "e"⟩ ⟨[], false, false, some false, 10⟩
    ⟨"s", "D", "m", false⟩ rfl
  refine ⟨?_, ?_, ?_, h.2.2.2⟩
  · exact applyPatch_swallows_errors.1 ⟨"s", "D", "m", false⟩ Method.am "ENOENT: not a conflict"
  · exact h.1.trans (by decide)
  · exact h.2.1.trans (by decide)

theorem version_bump_missing_pattern_amended_witness :
    incrementEmbedderVersion "nothing" =
      Except.error "TypeError: cannot read properties of null (reading 1)"
    ∧ incrementV8Version 12 "nothing" =
      Except.ok (13, "nothing", [Eff.write "deps/v8/include/v8-version.h"]) :=
  ⟨version_bump_missing_pattern_amended.1 "nothing" (by decide),
   version_bump_missing_pattern_amended.2 12 "nothing" (by decide)⟩

/-! ### The strategy planner `doBackport` and the run denotation -/

/-- The top-level tasks `doBackport` can place into its `todo` list. -/
inductive TaskId where
  | getCurrentV8Version
  | generatePatches
  | applyPatches
  | incrementV8Version
  | incrementEmbedderVersion
  | commitSquashedBackport
  | cherryPickV8Commits
  | applyAndCommitPatches
deriving DecidableEq, Repr

/-- The conditional version-bump task pushed by the squash branch
(`if (options.bump !== false) { ... nodeMajorVersion < 9 ... }`). -/
def bumpTask (o : Options) : List TaskId :=
  if o.bump ≠ some false then
    if o.nodeMajorVersion < 9 then [TaskId.incrementV8Version]
    else [TaskId.incrementEmbedderVersion]
  else []

/-- `doBackport(options)` from the source: always start with
`getCurrentV8Version` and `generatePatches`; then, if `options.squash`,
push `applyPatches`, the conditional bump and `commitSquashedBackport`;
else if `options.preserveOriginalAuthor`, push `cherryPickV8Commits`;
else push `applyAndCommitPatches`. -/
def doBackport (o : Options) : List TaskId :=
  [TaskId.getCurrentV8Version, TaskId.generatePatches] ++
    (if o.squash then
      [TaskId.applyPatches] ++ bumpTask o ++ [TaskId.commitSquashedBackport]
    else if o.preserveOriginalAuthor then [TaskId.cherryPickV8Commits]
    else [TaskId.applyAndCommitPatches])

/-- The patch record `generatePatches` builds for one resolved sha:
`rev-parse` output trimmed, the single-commit `format-patch` range
`sha^..sha`, and the `log --format=%B -n 1` message. -/
def generatePatchRecord (env : Env) (r : String) : Patch :=
  let sha := (env.revParse r).trim
  ⟨sha, env.formatPatch (sha ++ "^.." ++ sha), env.gitLog sha, false⟩

/-- The order-preserving denotation of `generatePatches`: the two
`Promise.all` joins index their results by input position, so the
record list follows the input order (schedule independence is proved
separately for the scheduled model). -/
def generatePatchesSeq (env : Env) (shas : List String) : List Patch :=
  shas.map (generatePatchRecord env)

/-- The upstream-clone reads performed by `generatePatches`: one
`rev-parse` per input reference, then one `format-patch` and one `log`
per resolved sha. -/
def generatePatchesEffs (env : Env) (shas : List String) : List Eff :=
  shas.map (fun r => Eff.v8Read ("rev-parse " ++ r)) ++
    (shas.map (fun r => (env.revParse r).trim)).flatMap
      (fun sha =>
        [Eff.v8Read ("format-patch --stdout " ++ sha ++ "^.." ++ sha),
         Eff.v8Read ("log --format=%B -n 1 " ++ sha)])

/-- The `applyPatches` task of the squash strategy: apply every patch in
order against the working tree; returns the updated records and the
concatenated effects. -/
def applyPatches (env : Env) (ps : List Patch) : List Patch × List Eff :=
  (ps.map (fun p => (applyPatchRun env p Method.apply).1),
   ps.flatMap (fun p => (applyPatchRun env p Method.apply).2))

/-- `commitSquashedBackport` from the source: stage `deps/v8` and create
the one squashed commit from all (updated) patch records. -/
def commitSquashedBackportEffs (ps : List Patch) : List Eff :=
  [Eff.add "deps/v8", Eff.commit false (formatMessageTitle ps) (squashedBody ps)]

/-- The task runner's sequencing: run the steps in order, concatenating
their effects, and halt the run at the first step that throws (listr
surfaces the failure and runs nothing further). -/
def runTasks {τ : Type} (f : τ → List Eff × Except String Unit) :
    List τ → List Eff × Except String Unit
  | [] => ([], Except.ok ())
  | x :: xs =>
      match (f x).2 with
      | Except.ok _ =>
          let rest := runTasks f xs
          ((f x).1 ++ rest.1, rest.2)
      | Except.error e => ((f x).1, Except.error e)

/-- The effects and outcome of one top-level task, over the patch
records generated from `o.sha` (generation is pure, so the records
consumed by the later tasks are recomputed rather than threaded).  The
version-bump file rewrites are modelled at the file level by
`incrementV8Version` / `incrementEmbedderVersion`; here the run-level
model assumes well-formed version files, so the bump steps report
success. -/
def taskRun (env : Env) (o : Options) : TaskId → List Eff × Except String Unit
  | TaskId.getCurrentV8Version => ([], Except.ok ())
  | TaskId.generatePatches => (generatePatchesEffs env o.sha, Except.ok ())
  | TaskId.applyPatches => ((applyPatches env (generatePatchesSeq env o.sha)).2, Except.ok ())
  | TaskId.incrementV8Version => ([Eff.write "deps/v8/include/v8-version.h"], Except.ok ())
  | TaskId.incrementEmbedderVersion =>
      ([Eff.write "common.gypi", Eff.add "common.gypi"], Except.ok ())
  | TaskId.commitSquashedBackport =>
      (commitSquashedBackportEffs (applyPatches env (generatePatchesSeq env o.sha)).1,
       Except.ok ())
  | TaskId.cherryPickV8Commits =>
      runTasks (cherryPickV8CommitTask env o) (generatePatchesSeq env o.sha)
  | TaskId.applyAndCommitPatches =>
      runTasks (applyPatchTask env o) (generatePatchesSeq env o.sha)

/-- One backport run: the planned tasks executed in order, halting at
the first failing step; result is the performed effect trace and the
run outcome. -/
def runBackport (env : Env) (o : Options) : List Eff × Except String Unit :=
  runTasks (taskRun env o) (doBackport o)

theorem runTasks_all_ok {τ : Type} (f : τ → List Eff × Except String Unit) :
    ∀ l : List τ, (∀ x ∈ l, (f x).2 = Except.ok ()) →
      runTasks f l = (l.flatMap (fun x => (f x).1), Except.ok ()) := by
  intro l
  induction l with
  | nil => intro _; rfl
  | cons x xs ih =>
      intro h
      have hx : (f x).2 = Except.ok () := h x (by simp)
      rw [List.flatMap_cons]
      simp only [runTasks, hx, ih (fun y hy => h y (by simp [hy]))]

theorem runTasks_head_error {τ : Type} (f : τ → List Eff × Except String Unit)
    (x : τ) (xs : List τ) (e : String) (h : (f x).2 = Except.error e) :
    runTasks f (x :: xs) = ((f x).1, Except.error e) := by
  simp only [runTasks, h]

/-- C2: squash takes precedence — with `squash` set the squash sequence
is planned whatever `preserveOriginalAuthor` holds; the preserve-author
sequence is planned exactly when `squash` is unset and
`preserveOriginalAuthor` is set; otherwise the default sequence is
planned; and for every options value exactly one of the three strategy
tasks appears in the plan. -/
theorem strategy_selection_exclusive (o : Options) :
    (o.squash = true →
        doBackport o =
          [TaskId.getCurrentV8Version, TaskId.generatePatches, TaskId.applyPatches] ++
            bumpTask o ++ [TaskId.commitSquashedBackport]
        ∧ ∀ b, doBackport { o with preserveOriginalAuthor := b } = doBackport o)
    ∧ (o.squash = false → o.preserveOriginalAuthor = true →
        doBackport o =
          [TaskId.getCurrentV8Version, TaskId.generatePatches, TaskId.cherryPickV8Commits])
    ∧ (o.squash = false → o.preserveOriginalAuthor = false →
        doBackport o =
          [TaskId.getCurrentV8Version, TaskId.generatePatches, TaskId.applyAndCommitPatches])
    ∧ ((TaskId.commitSquashedBackport ∈ doBackport o
          ∧ TaskId.cherryPickV8Commits ∉ doBackport o
          ∧ TaskId.applyAndCommitPatches ∉ doBackport o)
        ∨ (TaskId.commitSquashedBackport ∉ doBackport o
          ∧ TaskId.cherryPickV8Commits ∈ doBackport o
          ∧ TaskId.applyAndCommitPatches ∉ doBackport o)
        ∨ (TaskId.commitSquashedBackport ∉ doBackport o
          ∧ TaskId.cherryPickV8Commits ∉ doBackport o
          ∧ TaskId.applyAndCommitPatches ∈ doBackport o)) := by
  refine ⟨?_, ?_, ?_, ?_⟩
  · intro hs
    constructor
    · simp [doBackport, hs]
    · intro b
      simp only [doBackport, hs, if_true]
      rfl
  · intro hs hp; simp [doBackport, hs, hp]
  · intro hs hp; simp [doBackport, hs, hp]
  · cases hs : o.squash with
    | true =>
        left
        have hplan : doBackport o =
            [TaskId.getCurrentV8Version, TaskId.generatePatches, TaskId.applyPatches] ++
              bumpTask o ++ [TaskId.commitSquashedBackport] := by
          simp [doBackport, hs]
        rw [hplan]
        by_cases hb : o.bump = some false
        · simp [bumpTask, hb]
        · by_cases hn : o.nodeMajorVersion < 9
          · simp [bumpTask, hb, hn]
          · simp [bumpTask, hb, hn]
    | false =>
        cases hp : o.preserveOriginalAuthor with
        | true => right; left; simp [doBackport, hs, hp]
        | false => right; right; simp [doBackport, hs, hp]

theorem strategy_selection_exclusive_witness :
    doBackport ⟨["a", "b"], true, true, none, 12⟩ =
      [TaskId.getCurrentV8Version, TaskId.generatePatches, TaskId.applyPatches,
       TaskId.incrementEmbedderVersion, TaskId.commitSquashedBackport]
    ∧ doBackport ⟨["a", "b"], false, true, none, 12⟩ =
      [TaskId.getCurrentV8Version, TaskId.generatePatches, TaskId.cherryPickV8Commits] := by
  constructor
  · have h := ((strategy_selection_exclusive ⟨["a", "b"], true, true, none, 12⟩).1 rfl).1
    exact h.trans (by decide)
  · exact (strategy_selection_exclusive ⟨["a", "b"], false, true, none, 12⟩).2.1 rfl rfl

/-! ### Interpreting a trace into the commits it creates

A clean `git am` creates a commit carrying the author recorded in the
mailbox data; a conflicted `git am` leaves the mailbox pending until
`git am --continue` creates that commit; `git commit` creates a commit
authored by the operator; `git commit --amend` rewrites the tip commit's
message but keeps its author; everything else touches no commit. -/

/-- A commit in the downstream repository, as far as topology and
provenance are concerned. -/
structure Commit where
  author : String
  title : String
  body : String
deriving DecidableEq, Repr

/-- Git's behaviour regarding authorship: who the operator is, and which
author/subject/body a mailbox payload carries. -/
structure GitModel where
  operator : String
  authorOf : String → String
  mailTitleOf : String → String
  mailBodyOf : String → String

/-- One effect acting on (commits created so far, newest first; pending
mailbox payload of an interrupted `git am`). -/
def commitStep (g : GitModel) (s : List Commit × Option String) (e : Eff) :
    List Commit × Option String :=
  match e, s with
  | Eff.applyCmd Method.am d ok, (cs, pend) =>
      if ok then (⟨g.authorOf d, g.mailTitleOf d, g.mailBodyOf d⟩ :: cs, pend)
      else (cs, some d)
  | Eff.amContinue, (cs, pend) =>
      match pend with
      | some d => (⟨g.authorOf d, g.mailTitleOf d, g.mailBodyOf d⟩ :: cs, none)
      | none => (cs, none)
  | Eff.commit amend t b, (cs, pend) =>
      if amend then
        match cs with
        | [] => ([], pend)
        | c :: rest => (⟨c.author, t, b⟩ :: rest, pend)
      else (⟨g.operator, t, b⟩ :: cs, pend)
  | _, s => s

/-- The commits a trace creates, oldest first. -/
def commitsOf (g : GitModel) (tr : List Eff) : List Commit :=
  ((tr.foldl (commitStep g) ([], none)).1).reverse

/-- Effects that neither create nor rewrite a commit nor touch the
pending mailbox. -/
def inert : Eff → Bool
  | Eff.v8Read _ => true
  | Eff.applyCmd Method.apply _ _ => true
  | Eff.prompt => true
  | Eff.add _ => true
  | Eff.write _ => true
  | _ => false

theorem commitStep_inert (g : GitModel) (cs : List Commit) (pend : Option String)
    (e : Eff) (h : inert e = true) : commitStep g (cs, pend) e = (cs, pend) := by
  cases e with
  | v8Read c => rfl
  | applyCmd m d ok =>
      cases m with
      | apply => rfl
      | am => simp [inert] at h
  | prompt => rfl
  | amContinue => simp [inert] at h
  | add p => rfl
  | write p => rfl
  | commit a t b => simp [inert] at h

theorem foldl_commitStep_inert (g : GitModel) :
    ∀ (tr : List Eff), (∀ e ∈ tr, inert e = true) →
      ∀ s : List Commit × Option String, tr.foldl (commitStep g) s = s := by
  intro tr
  induction tr with
  | nil => intro _ s; rfl
  | cons e tr ih =>
      intro h s
      obtain ⟨cs, pend⟩ := s
      rw [List.foldl_cons, commitStep_inert g cs pend e (h e (by simp))]
      exact ih (fun x hx => h x (by simp [hx])) _

theorem generatePatchesEffs_inert (env : Env) (shas : List String) :
    ∀ e ∈ generatePatchesEffs env shas, inert e = true := by
  intro e he
  simp only [generatePatchesEffs, List.mem_append, List.mem_map, List.mem_flatMap] at he
  rcases he with ⟨r, -, rfl⟩ | ⟨sha, -, he⟩
  · rfl
  · simp only [List.mem_cons, List.not_mem_nil, or_false] at he
    rcases he with rfl | rfl <;> rfl

theorem bumpEffects_inert (o : Options) : ∀ e ∈ bumpEffects o, inert e = true := by
  intro e he
  unfold bumpEffects at he
  split at he
  · split at he
    · simp only [List.mem_cons, List.not_mem_nil, or_false] at he
      subst he; rfl
    · simp only [List.mem_cons, List.not_mem_nil, or_false] at he
      rcases he with rfl | rfl <;> rfl
  · simp at he

theorem applyPatchRun_eq (env : Env) (p : Patch) (m : Method) :
    applyPatchRun env p m =
      if env.conflicts p.sha then
        ({ p with hadConflicts := true }, [Eff.applyCmd m p.data false, Eff.prompt])
      else (p, [Eff.applyCmd m p.data true]) := by
  by_cases h : env.conflicts p.sha <;>
    simp [applyPatchRun, runCmdResult, applyPatch, h]

theorem applyPatches_effs_inert (env : Env) (ps : List Patch) :
    ∀ e ∈ (applyPatches env ps).2, inert e = true := by
  intro e he
  simp only [applyPatches, List.mem_flatMap] at he
  obtain ⟨p, -, he⟩ := he
  rw [applyPatchRun_eq] at he
  by_cases h : env.conflicts p.sha
  · rw [if_pos h] at he
    simp only [List.mem_cons, List.not_mem_nil, or_false] at he
    rcases he with rfl | rfl <;> rfl
  · rw [if_neg h] at he
    simp only [List.mem_cons, List.not_mem_nil, or_false] at he
    subst he; rfl

theorem bumpPlanEffs_inert (env : Env) (o : Options) :
    ∀ e ∈ (bumpTask o).flatMap (fun t => (taskRun env o t).1), inert e = true := by
  intro e he
  unfold bumpTask at he
  split at he
  · split at he <;>
      · simp only [List.flatMap_cons, List.flatMap_nil, List.append_nil, taskRun] at he
        simp only [List.mem_cons, List.not_mem_nil, or_false] at he
        first
        | (subst he; rfl)
        | (rcases he with rfl | rfl <;> rfl)
  · simp at he

theorem bumpPlan_ok (env : Env) (o : Options) :
    ∀ t ∈ bumpTask o, (taskRun env o t).2 = Except.ok () := by
  intro t ht
  unfold bumpTask at ht
  split at ht
  · split at ht <;>
      · simp only [List.mem_cons, List.not_mem_nil, or_false] at ht
        subst ht
        rfl
  · simp at ht

theorem foldl_amendHEAD_conflict (g : GitModel) (env : Env) (p : Patch)
    (hp : p.hadConflicts = true) (cs : List Commit) (d : String) :
    ((amendHEAD env p).1).foldl (commitStep g) (cs, some d) =
      (⟨g.authorOf d, formatMessageTitle [p],
        formatMessageBody p false (coAuthorTrailer env)⟩ :: cs, none) := by
  have hamend : (["--amend"] : List String).contains "--amend" = true := by decide
  simp [amendHEAD, hp, commitTask, hamend, List.foldl_cons, commitStep]

theorem foldl_amendHEAD_clean (g : GitModel) (env : Env) (p : Patch)
    (hp : p.hadConflicts = false) (c : Commit) (cs : List Commit) (pend : Option String) :
    ((amendHEAD env p).1).foldl (commitStep g) (c :: cs, pend) =
      (⟨c.author, formatMessageTitle [p], formatMessageBody p false ""⟩ :: cs, pend) := by
  have hamend : (["--amend"] : List String).contains "--amend" = true := by decide
  simp [amendHEAD, hp, commitTask, hamend, List.foldl_cons, commitStep]

theorem applyPatchTask_run (env : Env) (o : Options) (p : Patch) :
    (applyPatchTask env o p).2 = Except.error "TypeError: extraArgs is not iterable"
    ∧ ∀ e ∈ (applyPatchTask env o p).1, inert e = true := by
  constructor
  · rfl
  · intro e he
    have h1 : (applyPatchTask env o p).1 =
        (applyPatchRun env p Method.apply).2 ++ bumpEffects o ++ [Eff.add "deps/v8"] := rfl
    rw [h1] at he
    simp only [List.mem_append] at he
    rcases he with (he | he) | he
    · rw [applyPatchRun_eq] at he
      by_cases h : env.conflicts p.sha
      · rw [if_pos h] at he
        simp only [List.mem_cons, List.not_mem_nil, or_false] at he
        rcases he with rfl | rfl <;> rfl
      · rw [if_neg h] at he
        simp only [List.mem_cons, List.not_mem_nil, or_false] at he
        subst he
        rfl
    · exact bumpEffects_inert o e he
    · simp only [List.mem_cons, List.not_mem_nil, or_false] at he
      subst he
      rfl

theorem cherryPickV8CommitTask_ok (env : Env) (o : Options) (p : Patch) :
    (cherryPickV8CommitTask env o p).2 = Except.ok () := rfl

theorem cherryPickV8CommitTask_step (g : GitModel) (env : Env) (o : Options) (p : Patch)
    (hp : p.hadConflicts = false) (cs : List Commit) :
    ∃ t b, ((cherryPickV8CommitTask env o p).1).foldl (commitStep g) (cs, none) =
      (⟨g.authorOf p.data, t, b⟩ :: cs, none) := by
  have h1 : (cherryPickV8CommitTask env o p).1 =
      (applyPatchRun env p Method.am).2 ++ bumpEffects o ++
        (amendHEAD env (applyPatchRun env p Method.am).1).1 := rfl
  rw [h1, applyPatchRun_eq]
  by_cases h : env.conflicts p.sha
  · rw [if_pos h]
    refine ⟨formatMessageTitle [{ p with hadConflicts := true }],
      formatMessageBody { p with hadConflicts := true } false (coAuthorTrailer env), ?_⟩
    dsimp only
    rw [List.foldl_append, List.foldl_append]
    rw [show ([Eff.applyCmd Method.am p.data false, Eff.prompt].foldl (commitStep g)
      (cs, none)) = (cs, some p.data) from rfl]
    rw [foldl_commitStep_inert g (bumpEffects o) (bumpEffects_inert o) (cs, some p.data)]
    exact foldl_amendHEAD_conflict g env _ (by simp) cs p.data
  · rw [if_neg h]
    refine ⟨formatMessageTitle [p], formatMessageBody p false "", ?_⟩
    dsimp only
    rw [List.foldl_append, List.foldl_append]
    rw [show ([Eff.applyCmd Method.am p.data true].foldl (commitStep g) (cs, none)) =
      (⟨g.authorOf p.data, g.mailTitleOf p.data, g.mailBodyOf p.data⟩ :: cs, none) from rfl]
    rw [foldl_commitStep_inert g (bumpEffects o) (bumpEffects_inert o) _]
    exact foldl_amendHEAD_clean g env p hp _ cs none

theorem runTasks_append {τ : Type} (f : τ → List Eff × Except String Unit)
    (l1 l2 : List τ) (h : (runTasks f l1).2 = Except.ok ()) :
    runTasks f (l1 ++ l2) =
      ((runTasks f l1).1 ++ (runTasks f l2).1, (runTasks f l2).2) := by
  induction l1 with
  | nil => simp [runTasks]
  | cons x l1 ih =>
      cases hx : (f x).2 with
      | ok u =>
          have h1 : (runTasks f l1).2 = Except.ok () := by
            simpa [runTasks, hx] using h
          rw [List.cons_append]
          simp only [runTasks, hx]
          rw [ih h1]
          simp [List.append_assoc]
      | error e =>
          exfalso
          simp [runTasks, hx] at h

theorem foldl_flatMap_blocks (g : GitModel) (f : Patch → List Eff) (a : Patch → String) :
    ∀ (ps : List Patch),
      (∀ p ∈ ps, ∀ cs : List Commit, ∃ t b,
        (f p).foldl (commitStep g) (cs, none) = (⟨a p, t, b⟩ :: cs, none)) →
      ∀ cs : List Commit, ∃ l : List Commit,
        (ps.flatMap f).foldl (commitStep g) (cs, none) = (l ++ cs, none)
        ∧ l.map Commit.author = (ps.map a).reverse
        ∧ l.length = ps.length := by
  intro ps
  induction ps with
  | nil => intro _ cs; exact ⟨[], by simp⟩
  | cons p ps ih =>
      intro h cs
      obtain ⟨t, b, hb⟩ := h p (by simp) cs
      obtain ⟨l, hl, ha, hn⟩ := ih (fun q hq => h q (by simp [hq])) (⟨a p, t, b⟩ :: cs)
      refine ⟨l ++ [⟨a p, t, b⟩], ?_, ?_, ?_⟩
      · rw [List.flatMap_cons, List.foldl_append, hb, hl]
        simp
      · simp [ha]
      · simp [hn]

/-- C1 (code bug in the default branch): squash completes successfully
with exactly one commit, created by a single non-amend `git commit`
that is the final effect of the run (hence after all patches are
applied); preserve-author completes successfully with one commit per
patch whose author is the one carried by that patch's mailbox data
(created by `git am`, then amended, which keeps the author).  The
default patch-then-commit strategy, however, never creates a commit:
its per-patch commit step calls `commitTask(patch)` without
`extraArgs`, so spreading the undefined value throws a `TypeError`
right after the first patch's `git add` — the run halts with that
error and its effect trace contains no `git commit` at all,
contradicting the claim that each patch yields its own fresh
operator-authored commit. -/
theorem backport_strategy_topology (g : GitModel) (env : Env) (o : Options) :
    (o.squash = true →
        ∃ (pre : List Eff) (t b : String),
          (runBackport env o).1 = pre ++ [Eff.commit false t b]
          ∧ (runBackport env o).2 = Except.ok ()
          ∧ commitsOf g (runBackport env o).1 = [⟨g.operator, t, b⟩]
          ∧ (commitsOf g (runBackport env o).1).length = 1)
    ∧ (o.squash = false → o.preserveOriginalAuthor = true →
        (runBackport env o).2 = Except.ok ()
        ∧ (commitsOf g (runBackport env o).1).map Commit.author =
            (generatePatchesSeq env o.sha).map (fun p => g.authorOf p.data)
        ∧ (commitsOf g (runBackport env o).1).length = o.sha.length)
    ∧ (o.squash = false → o.preserveOriginalAuthor = false → o.sha ≠ [] →
        (runBackport env o).2 = Except.error "TypeError: extraArgs is not iterable"
        ∧ commitsOf g (runBackport env o).1 = []
        ∧ ∀ (amend : Bool) (t b : String),
            Eff.commit amend t b ∉ (runBackport env o).1) := by
  refine ⟨?_, ?_, ?_⟩
  · intro hs
    have hplan : doBackport o =
        [TaskId.getCurrentV8Version, TaskId.generatePatches, TaskId.applyPatches] ++
          bumpTask o ++ [TaskId.commitSquashedBackport] := by
      simp [doBackport, hs]
    have hall : ∀ t ∈ doBackport o, (taskRun env o t).2 = Except.ok () := by
      rw [hplan]
      intro t ht
      simp only [List.mem_append, List.mem_cons, List.not_mem_nil, or_false] at ht
      rcases ht with ((rfl | rfl | rfl) | ht) | rfl
      · rfl
      · rfl
      · rfl
      · exact bumpPlan_ok env o t ht
      · rfl
    have hrun2 : runBackport env o =
        ((doBackport o).flatMap (fun t => (taskRun env o t).1), Except.ok ()) :=
      runTasks_all_ok (taskRun env o) (doBackport o) hall
    have htr : (runBackport env o).1 =
        ((generatePatchesEffs env o.sha
            ++ (applyPatches env (generatePatchesSeq env o.sha)).2
            ++ (bumpTask o).flatMap (fun t => (taskRun env o t).1))
          ++ [Eff.add "deps/v8"])
        ++ [Eff.commit false
              (formatMessageTitle (applyPatches env (generatePatchesSeq env o.sha)).1)
              (squashedBody (applyPatches env (generatePatchesSeq env o.sha)).1)] := by
      rw [hrun2, hplan]
      simp [taskRun, commitSquashedBackportEffs, List.flatMap_append, List.append_assoc]
    have hA : ∀ e ∈ generatePatchesEffs env o.sha
        ++ (applyPatches env (generatePatchesSeq env o.sha)).2
        ++ (bumpTask o).flatMap (fun t => (taskRun env o t).1), inert e = true := by
      intro e he
      simp only [List.mem_append] at he
      rcases he with (he | he) | he
      · exact generatePatchesEffs_inert env o.sha e he
      · exact applyPatches_effs_inert env _ e he
      · exact bumpPlanEffs_inert env o e he
    have hc : commitsOf g (runBackport env o).1 =
        [⟨g.operator,
          formatMessageTitle (applyPatches env (generatePatchesSeq env o.sha)).1,
          squashedBody (applyPatches env (generatePatchesSeq env o.sha)).1⟩] := by
      rw [htr]
      unfold commitsOf
      rw [List.foldl_append, List.foldl_append,
        foldl_commitStep_inert g _ hA ([], none)]
      rfl
    exact ⟨_, _, _, htr, by rw [hrun2], hc, by rw [hc]; rfl⟩
  · intro hs hp
    have hplan : doBackport o =
        [TaskId.getCurrentV8Version, TaskId.generatePatches, TaskId.cherryPickV8Commits] := by
      simp [doBackport, hs, hp]
    have hfalse : ∀ p ∈ generatePatchesSeq env o.sha, p.hadConflicts = false := by
      intro p hpm
      simp only [generatePatchesSeq, List.mem_map] at hpm
      obtain ⟨r, -, rfl⟩ := hpm
      rfl
    have hcherryInner := runTasks_all_ok (cherryPickV8CommitTask env o)
      (generatePatchesSeq env o.sha) (fun p _ => cherryPickV8CommitTask_ok env o p)
    have hall : ∀ t ∈ doBackport o, (taskRun env o t).2 = Except.ok () := by
      rw [hplan]
      intro t ht
      simp only [List.mem_cons, List.not_mem_nil, or_false] at ht
      rcases ht with rfl | rfl | rfl
      · rfl
      · rfl
      · show (runTasks (cherryPickV8CommitTask env o) (generatePatchesSeq env o.sha)).2 =
          Except.ok ()
        rw [hcherryInner]
    have hrun2 : runBackport env o =
        ((doBackport o).flatMap (fun t => (taskRun env o t).1), Except.ok ()) :=
      runTasks_all_ok (taskRun env o) (doBackport o) hall
    have htr : (runBackport env o).1 =
        generatePatchesEffs env o.sha
          ++ (generatePatchesSeq env o.sha).flatMap
              (fun p => (cherryPickV8CommitTask env o p).1) := by
      rw [hrun2, hplan]
      simp only [List.flatMap_cons, List.flatMap_nil, List.append_nil, taskRun]
      rw [hcherryInner]
      simp
    have hblocks : ∀ p ∈ generatePatchesSeq env o.sha, ∀ cs : List Commit, ∃ t b,
        ((cherryPickV8CommitTask env o p).1).foldl (commitStep g) (cs, none) =
          (⟨g.authorOf p.data, t, b⟩ :: cs, none) := by
      intro p hpm cs
      exact cherryPickV8CommitTask_step g env o p (hfalse p hpm) cs
    obtain ⟨l, hl, ha, hn⟩ := foldl_flatMap_blocks g
      (fun p => (cherryPickV8CommitTask env o p).1)
      (fun p => g.authorOf p.data) (generatePatchesSeq env o.sha) hblocks []
    have hc : commitsOf g (runBackport env o).1 = l.reverse := by
      rw [htr]
      unfold commitsOf
      rw [List.foldl_append,
        foldl_commitStep_inert g _ (generatePatchesEffs_inert env o.sha) ([], none), hl]
      simp
    refine ⟨by rw [hrun2], ?_, ?_⟩
    · rw [hc, List.map_reverse, ha, List.reverse_reverse]
    · rw [hc]
      simp only [List.length_reverse, hn, generatePatchesSeq, List.length_map]
  · intro hs hp hn
    have hplan : doBackport o =
        [TaskId.getCurrentV8Version, TaskId.generatePatches,
         TaskId.applyAndCommitPatches] := by
      simp [doBackport, hs, hp]
    cases hsh : o.sha with
    | nil => exact absurd hsh hn
    | cons r rs =>
      have hseq : generatePatchesSeq env o.sha =
          generatePatchRecord env r :: rs.map (generatePatchRecord env) := by
        rw [generatePatchesSeq, hsh, List.map_cons]
      have hinner : runTasks (applyPatchTask env o) (generatePatchesSeq env o.sha) =
          ((applyPatchTask env o (generatePatchRecord env r)).1,
           Except.error "TypeError: extraArgs is not iterable") := by
        rw [hseq]
        exact runTasks_head_error _ _ _ _ (applyPatchTask_run env o _).1
      have hrun2 : runBackport env o =
          (generatePatchesEffs env o.sha
            ++ (applyPatchTask env o (generatePatchRecord env r)).1,
           Except.error "TypeError: extraArgs is not iterable") := by
        unfold runBackport
        rw [hplan]
        simp only [runTasks, taskRun, hinner]
        simp
      have hA : ∀ e ∈ (runBackport env o).1, inert e = true := by
        rw [hrun2]
        intro e he
        simp only [List.mem_append] at he
        rcases he with he | he
        · exact generatePatchesEffs_inert env o.sha e he
        · exact (applyPatchTask_run env o _).2 e he
      refine ⟨by rw [hrun2], ?_, ?_⟩
      · unfold commitsOf
        rw [foldl_commitStep_inert g _ hA ([], none)]
        rfl
      · intro amend t b hmem
        have hin := hA _ hmem
        simp [inert] at hin

/-- Concrete collaborators used to instantiate the topology theorem. -/
def gW : GitModel :=
  ⟨"operator", fun d => "author-of " ++ d, fun _ => "mail-title", fun _ => "mail-body"⟩

/-- A concrete conflict-free environment for the topology witness. -/
def envW : Env :=
  ⟨fun s => s ++ "f", fun s => "patch " ++ s, fun s => "msg " ++ s,
   fun _ => false, "user", "user@host"⟩

theorem backport_strategy_topology_witness :
    (commitsOf gW (runBackport envW ⟨["a", "b"], true, false, none, 12⟩).1).length = 1
    ∧ (commitsOf gW (runBackport envW ⟨["a", "b"], false, true, none, 12⟩).1).length = 2
    ∧ (runBackport envW ⟨["a", "b"], false, false, none, 12⟩).2 =
        Except.error "TypeError: extraArgs is not iterable"
    ∧ commitsOf gW (runBackport envW ⟨["a", "b"], false, false, none, 12⟩).1 = [] := by
  refine ⟨?_, ?_, ?_, ?_⟩
  · obtain ⟨pre, t, b, -, -, -, hlen⟩ :=
      (backport_strategy_topology gW envW ⟨["a", "b"], true, false, none, 12⟩).1 rfl
    exact hlen
  · have h := (backport_strategy_topology gW envW ⟨["a", "b"], false, true, none, 12⟩).2.1 rfl rfl
    exact h.2.2.trans rfl
  · exact ((backport_strategy_topology gW envW ⟨["a", "b"], false, false, none, 12⟩).2.2
      rfl rfl (by decide)).1
  · exact ((backport_strategy_topology gW envW ⟨["a", "b"], false, false, none, 12⟩).2.2
      rfl rfl (by decide)).2.1

/-! ### Scheduled model of the concurrent fetches in `generatePatches`

`Promise.all` starts one task per input index and places each result at
its own index, whatever order the tasks complete in.  A completion
schedule lists task indices in completion order; the join gathers the
indexed completion events and reads them back in input order. -/

instance : Inhabited Patch := ⟨⟨"", "", "", false⟩⟩

/-- The completion events of the concurrent tasks: the schedule lists
indices in completion order, each paired with that task's result. -/
def completeByIndex {α : Type} (sched : List Nat) (f : Nat → α) : List (Nat × α) :=
  sched.map (fun i => (i, f i))

/-- `Promise.all`'s join: read the results back by input index. -/
def joinByIndex {α : Type} [Inhabited α] (n : Nat) (events : List (Nat × α)) : List α :=
  (List.range n).map (fun i => (events.lookup i).getD default)

/-- `Promise.all` over `n` indexed tasks completing in order `sched`. -/
def promiseAll {α : Type} [Inhabited α] (sched : List Nat) (n : Nat) (f : Nat → α) : List α :=
  joinByIndex n (completeByIndex sched f)

/-- `generatePatches` from the source, with explicit completion
schedules for its two `Promise.all` joins: resolve every reference to
its full sha (`rev-parse`, trimmed), then fetch each resolved sha's
single-commit diff and message and build the records. -/
def generatePatches (env : Env) (sched1 sched2 : List Nat) (shas : List String) :
    List Patch :=
  let fullShas := promiseAll sched1 shas.length (fun i => (env.revParse (shas.getD i "")).trim)
  promiseAll sched2 fullShas.length (fun i =>
    let sha := fullShas.getD i ""
    (⟨sha, env.formatPatch (sha ++ "^.." ++ sha), env.gitLog sha, false⟩ : Patch))

theorem lookup_completeByIndex {α : Type} (f : Nat → α) :
    ∀ (sched : List Nat) (i : Nat), i ∈ sched →
      (completeByIndex sched f).lookup i = some (f i) := by
  intro sched
  induction sched with
  | nil => intro i hi; simp at hi
  | cons j sched ih =>
      intro i hi
      by_cases hij : i = j
      · subst hij
        simp [completeByIndex, List.lookup]
      · simp only [completeByIndex, List.map_cons, List.lookup,
          show (i == j) = false from beq_eq_false_iff_ne.mpr hij]
        exact ih i (by rcases List.mem_cons.mp hi with h | h; exact absurd h hij; exact h)

theorem promiseAll_complete {α : Type} [Inhabited α] (sched : List Nat) (n : Nat)
    (f : Nat → α) (h : ∀ i, i < n → i ∈ sched) :
    promiseAll sched n f = (List.range n).map f := by
  unfold promiseAll joinByIndex
  refine List.map_congr_left ?_
  intro i hi
  rw [lookup_completeByIndex f sched i (h i (List.mem_range.mp hi))]
  rfl

theorem map_getD_range {α β : Type} (g0 : α → β) (dflt : α) :
    ∀ l : List α, (List.range l.length).map (fun i => g0 (l.getD i dflt)) = l.map g0 := by
  intro l
  induction l with
  | nil => rfl
  | cons a l ih =>
      rw [List.length_cons, List.range_succ_eq_map, List.map_cons, List.map_map]
      have hfun : ((fun i => g0 ((a :: l).getD i dflt)) ∘ Nat.succ) =
          fun i => g0 (l.getD i dflt) := by
        funext i; rfl
      rw [hfun, ih]
      rfl

theorem map_trim_range (env : Env) (l : List String) :
    (List.range l.length).map (fun i => (env.revParse (l.getD i "")).trim) =
      l.map (fun r => (env.revParse r).trim) :=
  map_getD_range (fun r => (env.revParse r).trim) "" l

theorem map_record_range (env : Env) (l : List String) :
    (List.range l.length).map
      (fun i => (⟨l.getD i "",
        env.formatPatch (l.getD i "" ++ "^.." ++ l.getD i ""),
        env.gitLog (l.getD i ""), false⟩ : Patch)) =
      l.map (fun sha =>
        (⟨sha, env.formatPatch (sha ++ "^.." ++ sha), env.gitLog sha, false⟩ : Patch)) :=
  map_getD_range
    (fun sha => (⟨sha, env.formatPatch (sha ++ "^.." ++ sha), env.gitLog sha, false⟩ : Patch))
    "" l

/-- C6: whatever order the concurrent fetches complete in (any schedule
covering every input index), `generatePatches` yields the records in
exactly the input order; each record's `sha` is the trimmed `rev-parse`
resolution of its own input reference, and its diff and message are
fetched for exactly that single commit (`sha^..sha`). -/
theorem generatePatches_order (env : Env) (shas : List String) (sched1 sched2 : List Nat)
    (h1 : ∀ i, i < shas.length → i ∈ sched1)
    (h2 : ∀ i, i < shas.length → i ∈ sched2) :
    generatePatches env sched1 sched2 shas = generatePatchesSeq env shas
    ∧ generatePatches env sched1 sched2 shas =
        shas.map (fun r =>
          (⟨(env.revParse r).trim,
            env.formatPatch ((env.revParse r).trim ++ "^.." ++ (env.revParse r).trim),
            env.gitLog ((env.revParse r).trim), false⟩ : Patch)) := by
  have key : generatePatches env sched1 sched2 shas = shas.map (generatePatchRecord env) := by
    unfold generatePatches
    dsimp only
    rw [promiseAll_complete sched1 shas.length _ h1, map_trim_range env shas]
    rw [promiseAll_complete sched2 (shas.map (fun r => (env.revParse r).trim)).length _
      (by simpa using h2)]
    rw [map_record_range env (shas.map (fun r => (env.revParse r).trim)), List.map_map]
    rfl
  exact ⟨key, key⟩

theorem generatePatches_order_witness :
    generatePatches envW [2, 0, 1] [1, 2, 0] ["B", "A", "C"] =
      generatePatchesSeq envW ["B", "A", "C"] :=
  (generatePatches_order envW ["B", "A", "C"] [2, 0, 1] [1, 2, 0]
    (by decide) (by decide)).1

/-! ### The squash pre-flight check -/

/-- `checkOptions(options)` from the source: with several shas and
`squash` set, ask the squash confirmation (default `false`); return
`true` — the abort indication — exactly when the operator declines;
in every other case the function returns `undefined` (`none`).  The
second component records whether the confirmation was asked. -/
def checkOptions (o : Options) (confirmAnswer : Bool) : Option Bool × Bool :=
  if 1 < o.sha.length ∧ o.squash = true then
    (if confirmAnswer = false then (some true, true) else (none, true))
  else (none, false)

/-- Modelled from the spec: the command entry point that invokes
`checkOptions` before `doBackport` is not under the sources reviewed
here; per the spec, declining the pre-flight confirmation "aborts the
run before any patch is generated or applied", i.e. the planned tasks
never run when `checkOptions` yields `true` (a clean abort: no effects,
no failure). -/
def runWithPreflight (env : Env) (o : Options) (confirmAnswer : Bool) :
    List Eff × Except String Unit :=
  match (checkOptions o confirmAnswer).1 with
  | some true => ([], Except.ok ())
  | _ => runBackport env o

/-- C9: with several shas and squash, declining the confirmation aborts
the run cleanly with an empty effect trace (no upstream fetch, no
repository mutation); accepting, or running without squash, or with a
single sha, produces no abort indication and the run proceeds to the
planned tasks. -/
theorem checkOptions_preflight (env : Env) (o : Options) (a : Bool) :
    (1 < o.sha.length → o.squash = true → a = false →
        runWithPreflight env o a = ([], Except.ok ()) ∧ (checkOptions o a).2 = true)
    ∧ (a = true →
        runWithPreflight env o a = runBackport env o ∧ (checkOptions o a).1 = none)
    ∧ (o.squash = false →
        runWithPreflight env o a = runBackport env o ∧ checkOptions o a = (none, false))
    ∧ (o.sha.length ≤ 1 →
        runWithPreflight env o a = runBackport env o ∧ checkOptions o a = (none, false)) := by
  refine ⟨?_, ?_, ?_, ?_⟩
  · intro hl hs ha
    subst ha
    constructor
    · simp [runWithPreflight, checkOptions, hl, hs]
    · simp [checkOptions, hl, hs]
  · intro ha
    subst ha
    by_cases hc : 1 < o.sha.length ∧ o.squash = true
    · constructor <;> simp [runWithPreflight, checkOptions, hc]
    · constructor <;> simp [runWithPreflight, checkOptions, hc]
  · intro hs
    have hc : ¬(1 < o.sha.length ∧ o.squash = true) := by simp [hs]
    constructor <;> simp [runWithPreflight, checkOptions, hc]
  · intro hl
    have hc : ¬(1 < o.sha.length ∧ o.squash = true) := by
      rintro ⟨h1, -⟩
      omega
    constructor <;> simp [runWithPreflight, checkOptions, hc]

theorem checkOptions_preflight_witness :
    runWithPreflight envW ⟨["a", "b"], true, false, none, 12⟩ false = ([], Except.ok ())
    ∧ (checkOptions ⟨["a", "b"], true, false, none, 12⟩ false).2 = true
    ∧ runWithPreflight envW ⟨["a", "b"], true, false, none, 12⟩ true =
        runBackport envW ⟨["a", "b"], true, false, none, 12⟩ := by
  have h1 := (checkOptions_preflight envW ⟨["a", "b"], true, false, none, 12⟩ false).1
    (by decide) rfl rfl
  have h2 := (checkOptions_preflight envW ⟨["a", "b"], true, false, none, 12⟩ true).2.1 rfl
  exact ⟨h1.1, h1.2, h2.1⟩

end Backport
